import Mathlib

/-!
Verification of the bigint-toolkit library (arbitrary-precision integer
conversion and modular arithmetic utilities).

JavaScript `BigInt` is modeled as `Int`.  JS `/` and `%` on BigInt truncate
toward zero, so they are modeled by `Int.tdiv` and `Int.tmod`.  A thrown
exception is modeled by `Option.none` (wrapped in `Option`), and `Uint8Array`
values are modeled as `List Nat` whose elements are below 256.
-/

namespace BigintToolkit

/-- Source `abs(num)`: `if (num < 0n) num *= -1n; return num`. -/
def abs (num : Int) : Int :=
  if num < 0 then num * (-1) else num

/-- Source `negate(num)`: `return -abs(num)`. -/
def negate (num : Int) : Int := -abs num

/-- Result record of `eGcd`, mirroring the `{ g, x, y }` object. -/
structure EGcdResult where
  g : Int
  x : Int
  y : Int
  deriving Repr, DecidableEq

/-- Magnitude of a truncated remainder: `|a tmod b| = |a| % |b|`. -/
theorem natAbs_tmod (a b : Int) : (Int.tmod a b).natAbs = a.natAbs % b.natAbs := by
  cases a <;> cases b <;>
    simp only [Int.tmod, Int.natAbs_neg, Int.natAbs_ofNat, Int.natAbs_negSucc] <;> rfl

/-- Source `eGcd(a, b)`:
```
if (a === 0n) return { g: b, x: 0n, y: 1n };
let { g, x, y } = eGcd(b % a, a);
return { g, x: y - (b / a) * x, y: x };
``` -/
def eGcd (a b : Int) : EGcdResult :=
  if a = 0 then
    { g := b, x := 0, y := 1 }
  else
    let r := eGcd (Int.tmod b a) a
    { g := r.g, x := r.y - (Int.tdiv b a) * r.x, y := r.x }
termination_by a.natAbs
decreasing_by
  have hpos : 0 < a.natAbs := Int.natAbs_pos.mpr (by assumption)
  calc (Int.tmod b a).natAbs = b.natAbs % a.natAbs := natAbs_tmod b a
    _ < a.natAbs := Nat.mod_lt _ hpos

/-- The result of `eGcd` satisfies the Bézout identity exactly (helper). -/
theorem eGcd_identity (a b : Int) :
    a * (eGcd a b).x + b * (eGcd a b).y = (eGcd a b).g := by
  induction a, b using eGcd.induct with
  | case1 b => simp [eGcd]
  | case2 a b ha ih =>
    rw [eGcd, if_neg ha]
    have hmod : Int.tmod b a = b - a * (Int.tdiv b a) := by
      have := Int.tmod_add_tdiv b a
      linarith
    show a * ((eGcd (Int.tmod b a) a).y - (Int.tdiv b a) * (eGcd (Int.tmod b a) a).x)
        + b * (eGcd (Int.tmod b a) a).x = (eGcd (Int.tmod b a) a).g
    linear_combination ih - (eGcd (Int.tmod b a) a).x * hmod

/-- On nonnegative inputs the `g` component of `eGcd` is the mathematical gcd
(helper).  With negative inputs `g` can be negative. -/
theorem eGcd_g_eq_gcd (a b : Int) (ha : 0 ≤ a) (hb : 0 ≤ b) :
    (eGcd a b).g = (Int.gcd a b : Int) := by
  induction a, b using eGcd.induct with
  | case1 b =>
    rw [eGcd, if_pos rfl]
    show b = (Int.gcd 0 b : Int)
    simp [Int.gcd, Int.natAbs_of_nonneg hb]
  | case2 a b ha' ih =>
    rw [eGcd, if_neg ha']
    have hmodnn : 0 ≤ Int.tmod b a := Int.tmod_nonneg a hb
    have heq : Int.gcd (Int.tmod b a) a = Int.gcd a b := by
      simp only [Int.gcd, natAbs_tmod]
      exact (Nat.gcd_rec a.natAbs b.natAbs).symm
    show (eGcd (Int.tmod b a) a).g = (Int.gcd a b : Int)
    rw [ih hmodnn ha, heq]

/-- C5: `eGcd` follows the source recursion (base case `eGcd(0, b) = (b, 0, 1)`,
otherwise recursing on `(b mod a, a)`), and its result satisfies
`a*x + b*y == g` exactly, for all integers `a`, `b`. -/
theorem eGcd_bezout (a b : Int) :
    a * (eGcd a b).x + b * (eGcd a b).y = (eGcd a b).g :=
  eGcd_identity a b

/-- C8 counterexample: at `(a, b) = (0, -5)`, a pair different from `(0, 0)`,
the `g` component of `eGcd` is `-5`, which is negative; the claimed invariant
`g ≥ 0` fails. -/
theorem eGcd_g_nonneg_counterexample :
    (eGcd 0 (-5)).g = -5 ∧ ¬((0 : Int) = 0 ∧ (-5 : Int) = 0) ∧
      ¬(0 ≤ (eGcd 0 (-5)).g) := by
  refine ⟨?_, by simp, ?_⟩ <;> simp [eGcd]

/-- C8 amended: the `g` component of `eGcd(a, b)` is nonnegative whenever both
inputs are nonnegative (for negative inputs it can be negative, e.g.
`eGcd(0, -5).g = -5`). -/
theorem eGcd_g_nonneg (a b : Int) (ha : 0 ≤ a) (hb : 0 ≤ b) :
    0 ≤ (eGcd a b).g := by
  rw [eGcd_g_eq_gcd a b ha hb]
  exact Int.natCast_nonneg _

/-- Witness for C8 amended at `(4, 6)`. -/
theorem eGcd_g_nonneg_witness :
    (0 : Int) ≤ 4 ∧ (0 : Int) ≤ 6 ∧ 0 ≤ (eGcd 4 6).g :=
  ⟨by decide, by decide, eGcd_g_nonneg 4 6 (by decide) (by decide)⟩

/-- C10: `negate(n)` equals `-|n|`, hence is never positive, and `negate` is
not an involution: on a nonpositive input it returns the input unchanged, in
particular `negate(-5) = -5`, not `5`. -/
theorem negate_spec :
    (∀ n : Int, negate n = -((n.natAbs : Nat) : Int) ∧ negate n ≤ 0 ∧
      negate (negate n) = negate n) ∧ negate (-5) = -5 ∧ negate (-5) ≠ 5 := by
  refine ⟨fun n => ?_, by decide, by decide⟩
  simp only [negate, abs]
  split <;> rename_i h <;> split <;> rename_i h' <;> omega

/-- The value computed by `toZn(a, m)` on the non-throwing path:
`const aZm = a % m; return (aZm < 0n) ? aZm + m : aZm;`. -/
def toZnP (a m : Int) : Int :=
  let aZm := Int.tmod a m
  if aZm < 0 then aZm + m else aZm

/-- Source `toZn(a, m)`: throws (`none`) if `m <= 0`, otherwise returns the
smallest nonnegative representative of `a` modulo `m`. -/
def toZn (a m : Int) : Option Int :=
  if m ≤ 0 then none else some (toZnP a m)

/-- For a positive modulus, `toZnP` lands in `[0, m)` (helper). -/
theorem toZnP_bounds (a m : Int) (hm : 0 < m) :
    0 ≤ toZnP a m ∧ toZnP a m < m := by
  have habs := natAbs_tmod a m
  have hlt : (Int.tmod a m).natAbs < m.natAbs := by
    rw [habs]
    exact Nat.mod_lt _ (by omega)
  simp only [toZnP]
  split <;> omega

/-- For a positive modulus, `toZnP` agrees with the Euclidean remainder
(helper). -/
theorem toZnP_eq_emod (a m : Int) (hm : 0 < m) : toZnP a m = a % m := by
  obtain ⟨h0, h1⟩ := toZnP_bounds a m hm
  have hdvd : m ∣ toZnP a m - a := by
    have := Int.tmod_add_tdiv a m
    simp only [toZnP]
    split
    · exact ⟨1 - Int.tdiv a m, by linarith [mul_sub m (1 : Int) (Int.tdiv a m)]⟩
    · exact ⟨-Int.tdiv a m, by linarith [mul_neg m (Int.tdiv a m)]⟩
  calc toZnP a m = toZnP a m % m := (Int.emod_eq_of_lt h0 h1).symm
    _ = a % m := Int.ModEq.symm (Int.modEq_iff_dvd.mpr hdvd)

/-- Source `modInv(a, m)`:
```
const egcd = eGcd(toZn(a, m), m);
if (egcd.g !== 1n) throw ...;
return toZn(egcd.x, m);
``` -/
def modInv (a m : Int) : Option Int :=
  match toZn a m with
  | none => none
  | some z =>
    let egcd := eGcd z m
    if egcd.g ≠ 1 then none
    else toZn egcd.x m

/-- Helper: for `m > 0`, `modInv` succeeds iff `gcd(toZn(a,m), m) = 1`, and a
returned inverse `x` lies in `[0, m)` and satisfies `a * x ≡ 1 (mod m)`. -/
theorem modInv_characterization (a m : Int) (hm : 0 < m) :
    ((modInv a m).isSome ↔ Int.gcd (toZnP a m) m = 1) ∧
      (∀ x, modInv a m = some x →
        0 ≤ x ∧ x < m ∧ toZnP (a * x) m = toZnP 1 m ∧ (1 < m → toZnP (a * x) m = 1)) := by
  have hz := toZnP_bounds a m hm
  have hmod : modInv a m =
      (if (eGcd (toZnP a m) m).g ≠ 1 then none else toZn (eGcd (toZnP a m) m).x m) := by
    simp only [modInv, toZn, if_neg (by omega : ¬ m ≤ 0)]
  have hg : (eGcd (toZnP a m) m).g = (Int.gcd (toZnP a m) m : Int) :=
    eGcd_g_eq_gcd _ _ hz.1 (by omega)
  constructor
  · constructor
    · intro hs
      by_contra hne
      have : Int.gcd (toZnP a m) m ≠ 1 := hne
      have : (eGcd (toZnP a m) m).g ≠ 1 := by
        rw [hg]
        exact_mod_cast fun h => hne (by exact_mod_cast h)
      rw [hmod, if_pos this] at hs
      simp at hs
    · intro hgcd
      have : ¬((eGcd (toZnP a m) m).g ≠ 1) := by
        rw [hg, hgcd]
        simp
      rw [hmod, if_neg this]
      simp [toZn, if_neg (by omega : ¬ m ≤ 0)]
  · intro x hx
    have hgone : (eGcd (toZnP a m) m).g = 1 := by
      by_contra hne
      rw [hmod, if_pos hne] at hx
      simp at hx
    rw [hmod, if_neg (by simp [hgone])] at hx
    simp only [toZn, if_neg (by omega : ¬ m ≤ 0), Option.some.injEq] at hx
    subst hx
    obtain ⟨hx0, hx1⟩ := toZnP_bounds (eGcd (toZnP a m) m).x m hm
    refine ⟨hx0, hx1, ?_⟩
    have hbez := eGcd_identity (toZnP a m) m
    rw [hgone] at hbez
    have h1 : a ≡ toZnP a m [ZMOD m] := (Int.ModEq.symm (by
      show toZnP a m % m = a % m
      rw [toZnP_eq_emod a m hm, Int.emod_emod_of_dvd a dvd_rfl]))
    have h2 : toZnP (eGcd (toZnP a m) m).x m ≡ (eGcd (toZnP a m) m).x [ZMOD m] := by
      show _ % m = _ % m
      rw [toZnP_eq_emod _ m hm, Int.emod_emod_of_dvd _ dvd_rfl]
    have h3 : a * toZnP (eGcd (toZnP a m) m).x m ≡ 1 [ZMOD m] := by
      calc a * toZnP (eGcd (toZnP a m) m).x m
          ≡ toZnP a m * (eGcd (toZnP a m) m).x [ZMOD m] := Int.ModEq.mul h1 h2
        _ ≡ 1 [ZMOD m] := by
          rw [Int.ModEq]
          have heq1 : toZnP a m * (eGcd (toZnP a m) m).x = 1 + m * (-(eGcd (toZnP a m) m).y) := by
            linarith
          rw [heq1, Int.add_mul_emod_self_left]
    have hfin : toZnP (a * toZnP (eGcd (toZnP a m) m).x m) m = toZnP 1 m := by
      rw [toZnP_eq_emod (a * toZnP (eGcd (toZnP a m) m).x m) m hm, toZnP_eq_emod 1 m hm]
      exact h3
    refine ⟨hfin, fun h1m => ?_⟩
    rw [hfin, toZnP_eq_emod _ m hm, Int.emod_eq_of_lt (by omega) (by omega)]

/-- C6 counterexample: at `a = 0`, `m = 1` we have `gcd(toZn(0,1), 1) = 1`, so
per the claim `modInv` must return `x` with `(a*x) mod m == 1`; the code
returns `x = 0`, but `(0 * 0) mod 1 = 0 ≠ 1` (mod 1 no value is ≡ 1). -/
theorem modInv_counterexample :
    modInv 0 1 = some 0 ∧ Int.gcd (toZnP 0 1) 1 = 1 ∧ toZnP (0 * 0) 1 ≠ 1 := by
  refine ⟨?_, by decide, by decide⟩
  have h0 : eGcd 0 1 = { g := 1, x := 0, y := 1 } := by
    rw [eGcd, if_pos rfl]
  have hz : toZnP 0 1 = 0 := rfl
  simp [modInv, toZn, hz, h0]

/-- C6 amended: for `m > 0`, `modInv(a, m)` fails iff `gcd(toZn(a,m), m) ≠ 1`;
otherwise it returns `x ∈ [0, m)` with `a * x ≡ 1 (mod m)` — i.e.
`(a*x) mod m == 1 mod m`, which equals `1` whenever `m > 1` (at `m = 1` the
returned `x = 0` satisfies only the congruence, since `(a*x) mod 1 = 0`). -/
theorem modInv_spec (a m : Int) (hm : 0 < m) :
    ((modInv a m).isSome ↔ Int.gcd (toZnP a m) m = 1) ∧
      (∀ x, modInv a m = some x →
        0 ≤ x ∧ x < m ∧ toZnP (a * x) m = toZnP 1 m ∧ (1 < m → toZnP (a * x) m = 1)) :=
  modInv_characterization a m hm

/-- Witness for C6 amended at `(a, m) = (3, 5)`. -/
theorem modInv_spec_witness :
    (0 : Int) < 5 ∧ ((modInv 3 5).isSome ↔ Int.gcd (toZnP 3 5) 5 = 1) :=
  ⟨by decide, (modInv_spec 3 5 (by decide)).1⟩

/-- Source `isOdd(n)`: `(n % 2n) === 1n`. -/
def isOdd (n : Int) : Bool := Int.tmod n 2 = 1

/-- The `while (exp > 0n)` loop of `modPow`, with accumulator `r`:
```
while (exp > 0n) {
  if (base === 0n) return 0n;
  if (isOdd(exp)) r = r * base % m;
  exp = exp / 2n;
  base = base * base % m;
}
return r;
``` -/
def modPowLoop (base exp m r : Int) : Int :=
  if 0 < exp then
    if base = 0 then 0
    else
      modPowLoop (Int.tmod (base * base) m) (Int.tdiv exp 2) m
        (if isOdd exp then Int.tmod (r * base) m else r)
  else r
termination_by exp.toNat
decreasing_by
  rename_i hexp _
  rw [Int.tdiv_eq_ediv (by omega) (by omega)]
  omega

/-- Source `modPow(base, exp, m)`: throws (`none`) if `m === 0n`; returns `1`
if `exp === 0n`; normalizes `base` by `toZn` (which itself throws for
`m < 0`); for `exp < 0n` returns `modInv(modPow(base, abs(exp), m), m)`;
otherwise runs the square-and-multiply loop. -/
def modPow (base exp m : Int) : Option Int :=
  if m = 0 then none
  else if exp = 0 then some 1
  else
    match toZn base m with
    | none => none
    | some b =>
      if exp < 0 then
        match modPow b (abs exp) m with
        | none => none
        | some v => modInv v m
      else some (modPowLoop b exp m 1)
termination_by if exp < 0 then 1 else 0
decreasing_by
  rename_i hneg
  have habs : ¬(abs exp < 0) := by
    simp only [abs]
    split <;> omega
  simp [hneg, habs]

/-- C7 counterexample: `modPow(2, 3, -5)` throws even though the modulus `-5`
is nonzero — `toZn` rejects every negative modulus — so "fails exactly when
`m == 0`" is false. -/
theorem modPow_counterexample :
    modPow 2 3 (-5) = none ∧ (-5 : Int) ≠ 0 := by
  constructor
  · rw [modPow]
    norm_num [toZn]
  · decide

/-- C7 amended: `modPow(base, exp, m)` throws when `m = 0`, and also when
`m < 0` with `exp ≠ 0` (the `toZn` normalization rejects negative moduli).
For `m > 0` and `exp ≥ 0` it never throws; for `m > 0` and `exp < 0` it
throws exactly when the required inverse does not exist.  It returns `1`
immediately whenever `exp == 0` and `m ≠ 0` (including base 0). -/
theorem modPow_error_spec (base exp m : Int) :
    (m = 0 → modPow base exp m = none) ∧
      (m ≠ 0 → exp = 0 → modPow base exp m = some 1) ∧
      (m < 0 → exp ≠ 0 → modPow base exp m = none) ∧
      (0 < m → 0 ≤ exp → (modPow base exp m).isSome) ∧
      (0 < m → exp < 0 → ((modPow base exp m).isSome ↔
        Int.gcd (toZnP (modPowLoop (toZnP base m) (-exp) m 1) m) m = 1)) := by
  refine ⟨fun h0 => by rw [modPow, if_pos h0], fun hm0 he0 => by rw [modPow, if_neg hm0, he0, if_pos rfl],
    fun hmneg hexp => ?_, fun hmpos hexp => ?_, fun hmpos hexp => ?_⟩
  · rw [modPow, if_neg (by omega), if_neg hexp]
    simp [toZn, if_pos (by omega : m ≤ 0)]
  · rcases eq_or_lt_of_le hexp with he | he
    · rw [modPow, if_neg (by omega), ← he, if_pos rfl]
      simp
    · rw [modPow, if_neg (by omega), if_neg (by omega)]
      simp [toZn, if_neg (by omega : ¬ m ≤ 0), if_neg (by omega : ¬ exp < 0)]
  · have habs : abs exp = -exp := by
      simp only [abs]
      rw [if_pos hexp]
      ring
    have hb := toZnP_bounds base m hmpos
    have hinner : modPow (toZnP base m) (abs exp) m = some (modPowLoop (toZnP base m) (-exp) m 1) := by
      rw [modPow, if_neg (by omega), if_neg (by omega : ¬ abs exp = 0)]
      have hznorm : toZn (toZnP base m) m = some (toZnP base m) := by
        simp only [toZn, if_neg (by omega : ¬ m ≤ 0), Option.some.injEq]
        rw [toZnP_eq_emod _ m hmpos, Int.emod_eq_of_lt hb.1 hb.2]
      rw [hznorm]
      simp only []
      rw [if_neg (by rw [habs]; omega), habs]
    rw [modPow, if_neg (by omega), if_neg (by omega), ]
    simp only [toZn, if_neg (by omega : ¬ m ≤ 0)]
    rw [if_pos hexp, hinner]
    simp only []
    exact (modInv_characterization _ m hmpos).1

/-- Witness for C7 amended at `(base, exp, m) = (2, 3, 5)` (positive modulus,
nonnegative exponent: no failure). -/
theorem modPow_error_spec_witness :
    (0 : Int) < 5 ∧ (0 : Int) ≤ 3 ∧ (modPow 2 3 5).isSome :=
  ⟨by decide, by decide, (modPow_error_spec 2 3 5).2.2.2.1 (by decide) (by decide)⟩

/-!
### Byte / hex codec

Hex strings are modeled as lists of hex-digit values (each `< 16`), and
`Uint8Array` as lists of byte values (each `< 256`), most significant first
in both cases.
-/

/-- Little-endian hex digits of `n` (empty for `0`), i.e. `num.toString(16)`
read right to left.  `fuel` only bounds the recursion depth: any
`fuel ≥ n` computes all digits, and callers pass `fuel = n`. -/
def hexRevAux : Nat → Nat → List Nat
  | 0, _ => []
  | fuel + 1, n => if n = 0 then [] else n % 16 :: hexRevAux fuel (n / 16)

/-- `n.toString(16)` for a nonnegative bigint: minimal hex digits, most
significant first, `[0]` for `0`. -/
def toHexDigits (n : Nat) : List Nat :=
  if n = 0 then [0] else (hexRevAux n n).reverse

/-- Source `hexPadZero(hex)`: prepend `'0'` when the length is odd. -/
def hexPadZero (hex : List Nat) : List Nat :=
  if hex.length % 2 ≠ 0 then 0 :: hex else hex

/-- Source `bigintToHex(num, padZero)`.  In every call modeled here `num` is
nonnegative (the negative branch of `bigintToUint8` adds `2^bits` first), so
`toNat` is exact. -/
def bigintToHex (num : Int) (padZero : Bool) : List Nat :=
  let hexString := toHexDigits num.toNat
  if !padZero then hexString else hexPadZero hexString

/-- Source `bigintToHexPadZero(num)`. -/
def bigintToHexPadZero (num : Int) : List Nat := bigintToHex num true

/-- Source `hexToUint8(hex)`: each pair of hex digits becomes one byte
(`parseInt` of two digits is `16*hi + lo`); a trailing unpaired digit is
dropped, matching `numBytes = hex.length / 2`. -/
def hexToUint8 : List Nat → List Nat
  | a :: b :: rest => (a * 16 + b) :: hexToUint8 rest
  | _ => []

/-- Little-endian binary digit count (`0` for `0`); `fuel ≥ n` suffices. -/
def binLenAux : Nat → Nat → Nat
  | 0, _ => 0
  | fuel + 1, n => if n = 0 then 0 else binLenAux fuel (n / 2) + 1

/-- Length of `num.toString(2)`: the number of binary digits of `|num|`
(`"0"` has length 1), plus one for the `'-'` sign when `num < 0`.  The
source measures this signed string length. -/
def toString2Len (num : Int) : Nat :=
  (if num < 0 then 1 else 0) + (if num.natAbs = 0 then 1 else binLenAux num.natAbs num.natAbs)

/-- Source `bigintToUint8(num, handleNegative)`:
```
if (num < 0n) {
  if (handleNegative) {
    const bits = (BigInt(num.toString(2).length) / 8n + 1n) * 8n;
    num += 1n << bits;
  } else throw ...;
}
return hexToUint8(bigintToHexPadZero(num));
``` -/
def bigintToUint8 (num : Int) (handleNegative : Bool) : Option (List Nat) :=
  if num < 0 then
    if handleNegative then
      let bits : Nat := (toString2Len num / 8 + 1) * 8
      some (hexToUint8 (bigintToHexPadZero (num + 2 ^ bits)))
    else none
  else some (hexToUint8 (bigintToHexPadZero num))

/-- Big-endian accumulation `result = (result << 8n) + BigInt(bytes[i])`. -/
def bytesToNat (bytes : List Nat) : Nat :=
  bytes.foldl (fun r b => r * 256 + b) 0

/-- The carry loop `for (i = len-1; i >= 0 && carry > 0; i--)` of the
decoder, acting on the reversed (little-endian) list; `bytes[i] = value &
0xff` is `% 256` and `value >> 8` is `/ 256`. -/
def addCarryRev : Nat → List Nat → List Nat
  | _, [] => []
  | carry, b :: rest =>
    if carry = 0 then b :: rest
    else (b + carry) % 256 :: addCarryRev ((b + carry) / 256) rest

/-- Source `uint8ToBigint(bytes, handleNegative)`, returning both the result
and the final contents of the caller's array: the code mutates `bytes` in
place on the negative path (`bytes[i] = ~bytes[i] & 0xff`, which is
`255 - bytes[i]` for a `Uint8Array` element, then the carry loop). -/
def uint8ToBigintFull (bytes : List Nat) (handleNegative : Bool) : Int × List Nat :=
  let isNegative := handleNegative && decide (bytes.headD 0 &&& 128 ≠ 0)
  let bytes1 :=
    if isNegative then (addCarryRev 1 ((bytes.map (fun b => 255 - b)).reverse)).reverse
    else bytes
  let result : Int := (bytesToNat bytes1 : Nat)
  (if isNegative then -result else result, bytes1)

/-- The return value of `uint8ToBigint(bytes, handleNegative)`. -/
def uint8ToBigint (bytes : List Nat) (handleNegative : Bool) : Int :=
  (uint8ToBigintFull bytes handleNegative).1

/-- Big-endian value of a digit list in base `B` (helper). -/
def valBE (B : Nat) : List Nat → Nat
  | [] => 0
  | d :: ds => d * B ^ ds.length + valBE B ds

/-- Little-endian value of a digit list in base `B` (helper). -/
def valRev (B : Nat) : List Nat → Nat
  | [] => 0
  | d :: ds => d + B * valRev B ds

theorem valBE_append (B : Nat) (xs ys : List Nat) :
    valBE B (xs ++ ys) = valBE B xs * B ^ ys.length + valBE B ys := by
  induction xs with
  | nil => simp [valBE]
  | cons d t ih =>
    simp only [List.cons_append, valBE, List.append_eq, ih, List.length_append]
    ring

theorem valBE_reverse (B : Nat) (l : List Nat) :
    valBE B l.reverse = valRev B l := by
  induction l with
  | nil => rfl
  | cons d t ih =>
    simp only [List.reverse_cons, valBE_append, valBE, valRev, ih]
    simp [valBE]
    ring

theorem foldl_eq_valBE (B : Nat) (l : List Nat) (acc : Nat) :
    l.foldl (fun r d => r * B + d) acc = acc * B ^ l.length + valBE B l := by
  induction l generalizing acc with
  | nil => simp [valBE]
  | cons d t ih =>
    simp only [List.foldl_cons, ih, valBE, List.length_cons]
    ring

theorem bytesToNat_eq_valBE (l : List Nat) : bytesToNat l = valBE 256 l := by
  simp [bytesToNat, foldl_eq_valBE]

theorem valBE_lt (B : Nat) (l : List Nat) (h : ∀ d ∈ l, d < B) :
    valBE B l < B ^ l.length := by
  induction l with
  | nil => simp [valBE]
  | cons d t ih =>
    simp only [valBE, List.length_cons, pow_succ]
    have hd : d < B := h d (by simp)
    have ht := ih (fun x hx => h x (by simp [hx]))
    calc d * B ^ t.length + valBE B t < d * B ^ t.length + B ^ t.length := by omega
      _ = (d + 1) * B ^ t.length := by ring
      _ ≤ B * B ^ t.length := by
          exact Nat.mul_le_mul_right _ (by omega)
      _ = B ^ t.length * B := by ring

theorem valRev_hexRevAux (fuel n : Nat) (h : n ≤ fuel) :
    valRev 16 (hexRevAux fuel n) = n := by
  induction fuel generalizing n with
  | zero => simp only [hexRevAux, valRev]; omega
  | succ fuel ih =>
    by_cases h0 : n = 0
    · simp [hexRevAux, h0, valRev]
    · rw [hexRevAux, if_neg h0]
      simp only [valRev]
      rw [ih (n / 16) (by omega)]
      omega

theorem hexRevAux_lt (fuel n : Nat) : ∀ d ∈ hexRevAux fuel n, d < 16 := by
  induction fuel generalizing n with
  | zero => simp [hexRevAux]
  | succ fuel ih =>
    intro d hd
    rw [hexRevAux] at hd
    split at hd
    · simp at hd
    · rcases List.mem_cons.mp hd with h | h
      · omega
      · exact ih _ d h

theorem length_hexToUint8 (h : List Nat) :
    (hexToUint8 h).length = h.length / 2 := by
  induction h using hexToUint8.induct with
  | case1 a b rest ih => simp only [hexToUint8, List.length_cons, ih]; omega
  | case2 l h1 =>
    match l, h1 with
    | [], _ => rfl
    | [a], _ => simp [hexToUint8]
    | a :: b :: rest, h1 => exact (h1 a b rest rfl).elim

theorem hexToUint8_lt (h : List Nat) (hd : ∀ d ∈ h, d < 16) :
    ∀ b ∈ hexToUint8 h, b < 256 := by
  induction h using hexToUint8.induct with
  | case1 a b rest ih =>
    intro x hx
    rw [hexToUint8] at hx
    rcases List.mem_cons.mp hx with h1 | h1
    · have ha : a < 16 := hd a (by simp)
      have hb : b < 16 := hd b (by simp)
      omega
    · exact ih (fun d hdm => hd d (by simp [hdm])) x h1
  | case2 l h1 =>
    match l, h1 with
    | [], _ => simp [hexToUint8]
    | [a], _ => simp [hexToUint8]
    | a :: b :: rest, h1 => exact (h1 a b rest rfl).elim

theorem valBE_hexToUint8 (h : List Nat) (he : h.length % 2 = 0) :
    valBE 256 (hexToUint8 h) = valBE 16 h := by
  induction h using hexToUint8.induct with
  | case1 a b rest ih =>
    simp only [List.length_cons] at he
    have he' : rest.length % 2 = 0 := by omega
    rw [hexToUint8]
    simp only [valBE, length_hexToUint8, ih he', List.length_cons]
    have h2 : (256 : Nat) ^ (rest.length / 2) = 16 ^ rest.length := by
      have : (256 : Nat) = 16 ^ 2 := by norm_num
      rw [this, ← pow_mul]
      congr 1
      omega
    rw [h2]
    ring
  | case2 l h1 =>
    match l, h1, he with
    | [], _, _ => rfl
    | [a], _, he => simp at he
    | a :: b :: rest, h1, _ => exact (h1 a b rest rfl).elim

theorem hexRevAux_zero (fuel : Nat) : hexRevAux fuel 0 = [] := by
  cases fuel <;> simp [hexRevAux]

theorem hexRevAux_bounds (fuel n : Nat) (h0 : 0 < n) (h : n ≤ fuel) :
    0 < (hexRevAux fuel n).length ∧ n < 16 ^ (hexRevAux fuel n).length ∧
      16 ^ (hexRevAux fuel n).length ≤ 16 * n := by
  induction fuel generalizing n with
  | zero => omega
  | succ fuel ih =>
    rw [hexRevAux, if_neg (by omega)]
    by_cases hq : n / 16 = 0
    · rw [hq, hexRevAux_zero]
      simp only [List.length_cons, List.length_nil]
      norm_num
      omega
    · obtain ⟨hl, hub, hlb⟩ := ih (n / 16) (by omega) (by omega)
      simp only [List.length_cons, pow_succ]
      refine ⟨by omega, ?_, ?_⟩ <;>
        set P := (16 : Nat) ^ (hexRevAux fuel (n / 16)).length with hP <;> omega

theorem binLenAux_bounds (fuel n : Nat) (h0 : 0 < n) (h : n ≤ fuel) :
    0 < binLenAux fuel n ∧ n < 2 ^ binLenAux fuel n ∧ 2 ^ binLenAux fuel n ≤ 2 * n := by
  induction fuel generalizing n with
  | zero => omega
  | succ fuel ih =>
    rw [binLenAux, if_neg (by omega)]
    by_cases hq : n / 2 = 0
    · have hzero : binLenAux fuel 0 = 0 := by cases fuel <;> simp [binLenAux]
      rw [hq, hzero]
      norm_num
      omega
    · obtain ⟨hl, hub, hlb⟩ := ih (n / 2) (by omega) (by omega)
      simp only [pow_succ]
      refine ⟨by omega, ?_, ?_⟩ <;>
        set P := (2 : Nat) ^ binLenAux fuel (n / 2) with hP <;> omega

theorem add_mul_mod_mul (a B x M : Nat) (hM : 0 < M) (ha : a < B) :
    (a + B * x) % (B * M) = a + B * (x % M) := by
  have hx : x = M * (x / M) + x % M := (Nat.div_add_mod x M).symm
  have hsplit : a + B * x = (a + B * (x % M)) + (x / M) * (B * M) := by
    conv_lhs => rw [hx]
    ring
  rw [hsplit, Nat.add_mul_mod_self_right]
  apply Nat.mod_eq_of_lt
  have hxm : x % M < M := Nat.mod_lt _ hM
  have : B * (x % M) ≤ B * (M - 1) := Nat.mul_le_mul_left _ (by omega)
  have hBM : B * (M - 1) = B * M - B := by
    rw [Nat.mul_sub]
    omega
  have hBle : B ≤ B * M := Nat.le_mul_of_pos_right B hM
  omega

theorem length_addCarryRev (c : Nat) (l : List Nat) :
    (addCarryRev c l).length = l.length := by
  induction l generalizing c with
  | nil => rfl
  | cons b rest ih =>
    rw [addCarryRev]
    split
    · rfl
    · simp only [List.length_cons, ih]

theorem valRev_addCarryRev (c : Nat) (l : List Nat) (h : ∀ b ∈ l, b < 256) :
    valRev 256 (addCarryRev c l) = (valRev 256 l + c) % 256 ^ l.length := by
  induction l generalizing c with
  | nil => simp [addCarryRev, valRev, Nat.mod_one]
  | cons b rest ih =>
    rw [addCarryRev]
    split
    · rename_i hc
      subst hc
      have hlt : valRev 256 (b :: rest) < 256 ^ (b :: rest).length := by
        rw [← valBE_reverse]
        have := valBE_lt 256 (b :: rest).reverse (fun d hd => h d (List.mem_reverse.mp hd))
        simpa using this
      rw [Nat.add_zero, Nat.mod_eq_of_lt hlt]
    · rename_i hc
      simp only [valRev, List.length_cons]
      rw [ih _ (fun x hx => h x (by simp [hx]))]
      have hb : b < 256 := h b (by simp)
      have hmod : (b + c) % 256 < 256 := Nat.mod_lt _ (by omega)
      have hMpos : 0 < (256 : Nat) ^ rest.length := Nat.pos_pow_of_pos _ (by omega)
      have hkey := add_mul_mod_mul ((b + c) % 256) 256 (valRev 256 rest + (b + c) / 256)
        (256 ^ rest.length) hMpos hmod
      have harg : (b + c) % 256 + 256 * (valRev 256 rest + (b + c) / 256) =
          b + 256 * valRev 256 rest + c := by
        have := Nat.div_add_mod (b + c) 256
        ring_nf
        omega
      rw [harg] at hkey
      rw [pow_succ, mul_comm ((256 : Nat) ^ rest.length) 256, ← hkey]

theorem valBE_invert (l : List Nat) (h : ∀ b ∈ l, b < 256) :
    valBE 256 (l.map fun b => 255 - b) + valBE 256 l + 1 = 256 ^ l.length := by
  induction l with
  | nil => rfl
  | cons b rest ih =>
    simp only [List.map_cons, valBE, List.length_map, List.length_cons]
    have hb : b < 256 := h b (by simp)
    have ihr := ih (fun x hx => h x (by simp [hx]))
    have hsum : (255 - b) * 256 ^ rest.length + b * 256 ^ rest.length =
        255 * 256 ^ rest.length := by
      rw [← Nat.add_mul]
      congr 1
      omega
    rw [pow_succ]
    set P := (256 : Nat) ^ rest.length with hP
    set M := valBE 256 (List.map (fun b => 255 - b) rest) with hM
    set V := valBE 256 rest with hV
    linarith

theorem headD_eq_div (l : List Nat) (hne : l ≠ []) (h : ∀ d ∈ l, d < 256) :
    l.headD 0 = valBE 256 l / 256 ^ (l.length - 1) := by
  match l, hne with
  | b :: t, _ =>
    simp only [List.headD_cons, valBE, List.length_cons, Nat.add_sub_cancel]
    have hV : valBE 256 t < 256 ^ t.length :=
      valBE_lt 256 t (fun d hd => h d (by simp [hd]))
    have hPpos : 0 < (256 : Nat) ^ t.length := Nat.pos_pow_of_pos _ (by omega)
    rw [mul_comm, Nat.mul_add_div hPpos, Nat.div_eq_of_lt hV]
    omega

set_option maxRecDepth 4096 in
/-- For a byte value, the sign-bit test of the decoder: `b & 0x80 !== 0` is
exactly `128 ≤ b` (helper). -/
theorem land128_iff : ∀ b : Nat, b < 256 → ((b &&& 128 ≠ 0) ↔ 128 ≤ b) := by
  decide

theorem toHexDigits_lt (n : Nat) : ∀ d ∈ toHexDigits n, d < 16 := by
  intro d hd
  rw [toHexDigits] at hd
  split at hd
  · simp at hd
    omega
  · exact hexRevAux_lt n n d (List.mem_reverse.mp hd)

theorem valBE_toHexDigits (n : Nat) : valBE 16 (toHexDigits n) = n := by
  rw [toHexDigits]
  split
  · rename_i h
    simp [valBE, h]
  · rw [valBE_reverse]
    exact valRev_hexRevAux n n le_rfl

theorem hexPadZero_even (h : List Nat) : (hexPadZero h).length % 2 = 0 := by
  rw [hexPadZero]
  split <;> rename_i hc
  · simp only [List.length_cons]
    omega
  · omega

theorem valBE_hexPadZero (h : List Nat) : valBE 16 (hexPadZero h) = valBE 16 h := by
  rw [hexPadZero]
  split
  · simp [valBE]
  · rfl

theorem hexPadZero_lt (h : List Nat) (hd : ∀ d ∈ h, d < 16) :
    ∀ d ∈ hexPadZero h, d < 16 := by
  intro d hdm
  rw [hexPadZero] at hdm
  split at hdm
  · rcases List.mem_cons.mp hdm with h1 | h1
    · omega
    · exact hd d h1
  · exact hd d hdm

theorem bigintToHexPadZero_eq (num : Int) :
    bigintToHexPadZero num = hexPadZero (toHexDigits num.toNat) := rfl

/-- Value, byte bounds and length of the nonnegative encoding pipeline
(helper). -/
theorem encodeBytes_spec (n : Nat) :
    valBE 256 (hexToUint8 (hexPadZero (toHexDigits n))) = n ∧
      (∀ b ∈ hexToUint8 (hexPadZero (toHexDigits n)), b < 256) ∧
      (hexToUint8 (hexPadZero (toHexDigits n))).length =
        (hexPadZero (toHexDigits n)).length / 2 := by
  refine ⟨?_, ?_, length_hexToUint8 _⟩
  · rw [valBE_hexToUint8 _ (hexPadZero_even _), valBE_hexPadZero, valBE_toHexDigits]
  · exact hexToUint8_lt _ (hexPadZero_lt _ (toHexDigits_lt n))

/-- Decoding with `handleNegative = false` returns the big-endian value and
leaves the array untouched (helper). -/
theorem decode_false (bs : List Nat) :
    uint8ToBigintFull bs false = (((bytesToNat bs : Nat) : Int), bs) := rfl

/-- Decoding with `handleNegative = true` but a clear sign bit behaves like
the nonnegative decoder (helper). -/
theorem decode_true_pos (bs : List Nat) (h : bs.headD 0 &&& 128 = 0) :
    uint8ToBigintFull bs true = (((bytesToNat bs : Nat) : Int), bs) := by
  have hc : (true && decide (bs.headD 0 &&& 128 ≠ 0)) = false := by rw [h]; rfl
  unfold uint8ToBigintFull
  rw [hc]
  rfl

/-- Decoding with `handleNegative = true` and the sign bit set: the array is
replaced by its two's-complement negation and the result is
`-(256^len - value)` (helper). -/
theorem decode_true_neg (bs : List Nat) (hb : ∀ b ∈ bs, b < 256) (hne : bs ≠ [])
    (hhead : 128 ≤ bs.headD 0) :
    (uint8ToBigintFull bs true).1 =
        -(((256 ^ bs.length - bytesToNat bs) : Nat) : Int) ∧
      bytesToNat (uint8ToBigintFull bs true).2 = 256 ^ bs.length - bytesToNat bs ∧
      (uint8ToBigintFull bs true).2.length = bs.length := by
  have hheadlt : bs.headD 0 < 256 := by
    match bs, hne with
    | b :: t, _ => exact hb b (by simp)
  have hisneg : (bs.headD 0 &&& 128 ≠ 0) := (land128_iff _ hheadlt).mpr hhead
  have hdec : decide (bs.headD 0 &&& 128 ≠ 0) = true := decide_eq_true hisneg
  have hnpos : 0 < bytesToNat bs := by
    match bs, hne, hhead with
    | b :: t, _, hhead =>
      rw [bytesToNat_eq_valBE]
      simp only [valBE]
      have : 0 < (256 : Nat) ^ t.length := Nat.pos_pow_of_pos _ (by omega)
      simp only [List.headD_cons] at hhead
      positivity
  have hinvlt : ∀ x ∈ (bs.map fun b => 255 - b).reverse, x < 256 := by
    intro x hx
    obtain ⟨b, _, hbx⟩ := List.mem_map.mp (List.mem_reverse.mp hx)
    omega
  have hval2 : bytesToNat (addCarryRev 1 ((bs.map fun b => 255 - b).reverse)).reverse =
      256 ^ bs.length - bytesToNat bs := by
    rw [bytesToNat_eq_valBE, valBE_reverse, valRev_addCarryRev 1 _ hinvlt]
    have hrev : valRev 256 ((bs.map fun b => 255 - b).reverse) =
        valBE 256 (bs.map fun b => 255 - b) := by
      rw [← valBE_reverse, List.reverse_reverse]
    rw [hrev]
    have hinv := valBE_invert bs hb
    have hlen : ((bs.map fun b => 255 - b).reverse).length = bs.length := by simp
    rw [hlen, bytesToNat_eq_valBE]
    rw [bytesToNat_eq_valBE] at hnpos
    have hnlt : valBE 256 bs < 256 ^ bs.length := valBE_lt 256 bs hb
    rw [Nat.mod_eq_of_lt (by omega)]
    omega
  have hlen2 : ((addCarryRev 1 ((bs.map fun b => 255 - b).reverse)).reverse).length
      = bs.length := by
    simp [length_addCarryRev]
  have hcond : (true && decide (bs.headD 0 &&& 128 ≠ 0)) = true := by rw [hdec]; rfl
  have hfull : uint8ToBigintFull bs true =
      (-((bytesToNat ((addCarryRev 1 ((bs.map fun b => 255 - b).reverse)).reverse) : Nat) : Int),
        (addCarryRev 1 ((bs.map fun b => 255 - b).reverse)).reverse) := by
    unfold uint8ToBigintFull
    rw [hcond]
    rfl
  refine ⟨?_, ?_, ?_⟩ <;> rw [hfull]
  · rw [hval2]
  · exact hval2
  · exact hlen2

/-- Full analysis of `bigintToUint8` on a negative input (helper): the
encoding succeeds, has exactly `bits/8 = toString2Len(v)/8 + 1` bytes, all
below 256, its first byte has the sign bit set, and its big-endian value is
`v + 2^bits`. -/
theorem encode_neg_analysis (v : Int) (hv : v < 0) :
    ∃ bs, bigintToUint8 v true = some bs ∧
      bs.length = toString2Len v / 8 + 1 ∧
      (∀ b ∈ bs, b < 256) ∧ bs ≠ [] ∧ 128 ≤ bs.headD 0 ∧
      bytesToNat bs + v.natAbs = 2 ^ ((toString2Len v / 8 + 1) * 8) := by
  have hvabs : 0 < v.natAbs := by omega
  obtain ⟨hL0, hLub, hLlb⟩ := binLenAux_bounds v.natAbs v.natAbs hvabs le_rfl
  set L := binLenAux v.natAbs v.natAbs with hLdef
  have hstr : toString2Len v = 1 + L := by
    rw [toString2Len, if_pos hv, if_neg (by omega)]
  set k := (1 + L) / 8 + 1 with hkdef
  have hstr8 : toString2Len v / 8 + 1 = k := by rw [hstr]
  set B := k * 8 with hBdef
  have hBL : L + 2 ≤ B := by
    have h8 : 8 * ((1 + L) / 8) + 8 > 1 + L := by omega
    omega
  have hB1 : 1 ≤ B := by omega
  -- the shifted value 2^B + v, as a natural number
  have hcast : ((2 ^ B : Nat) : Int) = (2 : Int) ^ B := by push_cast; ring
  have hpowLB : (2 : Nat) ^ L ≤ 2 ^ (B - 1) := Nat.pow_le_pow_right (by omega) (by omega)
  have hpowB : (2 : Nat) ^ B = 2 * 2 ^ (B - 1) := by
    conv_lhs => rw [show B = (B - 1) + 1 by omega]
    rw [pow_succ']
  have htoNat : (v + (2 : Int) ^ B).toNat = 2 ^ B - v.natAbs := by
    rw [← hcast]
    omega
  have hn'lb : 2 ^ (B - 1) ≤ 2 ^ B - v.natAbs := by omega
  have hn'ub : 2 ^ B - v.natAbs < 2 ^ B := by omega
  have hn'pos : 0 < 2 ^ B - v.natAbs := by omega
  set n' := 2 ^ B - v.natAbs with hn'def
  -- the encoder takes the negative branch with bits = B
  have hencode : bigintToUint8 v true =
      some (hexToUint8 (hexPadZero (toHexDigits n'))) := by
    rw [bigintToUint8, if_pos hv, if_pos rfl]
    simp only [hstr8, bigintToHexPadZero_eq, htoNat]
  -- hex digit count of n' is exactly 2k
  obtain ⟨hd0, hdub, hdlb⟩ := hexRevAux_bounds n' n' hn'pos le_rfl
  set d := (hexRevAux n' n').length with hddef
  have h16 : ∀ t : Nat, (16 : Nat) ^ t = 2 ^ (4 * t) := by
    intro t
    rw [show (16 : Nat) = 2 ^ 4 by norm_num, ← pow_mul]
  have hd2k : d = 2 * k := by
    have hub2 : 2 ^ (B - 1) < 2 ^ (4 * d) := by
      calc 2 ^ (B - 1) ≤ n' := hn'lb
        _ < 16 ^ d := hdub
        _ = 2 ^ (4 * d) := h16 d
    have hlb2 : 2 ^ (4 * d) < 2 ^ (B + 4) := by
      calc 2 ^ (4 * d) = 16 ^ d := (h16 d).symm
        _ ≤ 16 * n' := hdlb
        _ < 16 * 2 ^ B := by omega
        _ = 2 ^ (B + 4) := by ring
    have h1 : B - 1 < 4 * d := (Nat.pow_lt_pow_iff_right (by omega)).mp hub2
    have h2 : 4 * d < B + 4 := (Nat.pow_lt_pow_iff_right (by omega)).mp hlb2
    omega
  have hhex : toHexDigits n' = (hexRevAux n' n').reverse := by
    rw [toHexDigits, if_neg (by omega)]
  have hhexlen : (toHexDigits n').length = 2 * k := by
    rw [hhex, List.length_reverse, ← hddef, hd2k]
  have hpad : hexPadZero (toHexDigits n') = toHexDigits n' := by
    rw [hexPadZero, if_neg (by rw [hhexlen]; omega)]
  obtain ⟨hval, hblt, hblen⟩ := encodeBytes_spec n'
  rw [hpad] at hval hblt hblen
  have hlenk : (hexToUint8 (toHexDigits n')).length = k := by
    rw [hblen, hhexlen]
    omega
  have hnenil : hexToUint8 (toHexDigits n') ≠ [] := by
    intro hc
    rw [hc] at hlenk
    simp at hlenk
    omega
  have h256 : ∀ t : Nat, (256 : Nat) ^ t = 2 ^ (8 * t) := by
    intro t
    rw [show (256 : Nat) = 2 ^ 8 by norm_num, ← pow_mul]
  have hhead : 128 ≤ (hexToUint8 (toHexDigits n')).headD 0 := by
    rw [headD_eq_div _ hnenil hblt, hval, hlenk]
    rw [Nat.le_div_iff_mul_le (Nat.pos_pow_of_pos _ (by omega))]
    calc (128 : Nat) * 256 ^ (k - 1) = 2 ^ 7 * 2 ^ (8 * (k - 1)) := by rw [h256]; norm_num
      _ = 2 ^ (7 + 8 * (k - 1)) := by rw [pow_add]
      _ = 2 ^ (B - 1) := by
          congr 1
          omega
      _ ≤ n' := hn'lb
  refine ⟨hexToUint8 (toHexDigits n'), ?_, ?_, hblt, hnenil, hhead, ?_⟩
  · rw [hencode, hpad]
  · rw [hlenk, hstr8]
  · rw [bytesToNat_eq_valBE, hval, hstr8, ← hBdef]
    omega

/-- C1 counterexample: the claimed round-trip `Decode(Encode(v,true),true) = v`
for every integer fails at `v = 128`: the encoder emits the single byte
`[128]` (no leading zero byte), whose sign bit is set, so the decoder
reads it back as `-128`. -/
theorem roundtrip_counterexample :
    bigintToUint8 128 true = some [128] ∧ uint8ToBigint [128] true = -128 ∧
      ((-128 : Int) ≠ 128) := by
  refine ⟨by decide, by decide, by decide⟩

/-- C1 amended: the round trip `Decode(Encode(v,true),true) = v` holds for
every negative `v`, and for nonnegative `v` whenever the encoding's first
byte is below `0x80` (for `v ≥ 0` whose top byte has the sign bit set, e.g.
`v = 128`, the flag-true decode misreads the value as negative); the
round trip `Decode(Encode(v,false),false) = v` holds for every `v ≥ 0`. -/
theorem roundtrip_spec (v : Int) :
    (v < 0 → ∀ bs, bigintToUint8 v true = some bs → uint8ToBigint bs true = v) ∧
      (0 ≤ v → ∀ bs, bigintToUint8 v true = some bs → bs.headD 0 < 128 →
        uint8ToBigint bs true = v) ∧
      (0 ≤ v → ∀ bs, bigintToUint8 v false = some bs → uint8ToBigint bs false = v) := by
  have hposcase : ∀ hv0 : 0 ≤ v, ∀ flag, bigintToUint8 v flag =
      some (hexToUint8 (hexPadZero (toHexDigits v.toNat))) := by
    intro hv0 flag
    rw [bigintToUint8, if_neg (by omega), bigintToHexPadZero_eq]
  refine ⟨?_, ?_, ?_⟩
  · intro hv bs hbs
    obtain ⟨bs0, henc, hlen, hlt, hne, hhead, hval⟩ := encode_neg_analysis v hv
    rw [henc, Option.some.injEq] at hbs
    subst hbs
    obtain ⟨hres, _, _⟩ := decode_true_neg bs0 hlt hne hhead
    rw [uint8ToBigint, hres]
    have h256 : (256 : Nat) ^ bs0.length = 2 ^ ((toString2Len v / 8 + 1) * 8) := by
      rw [hlen, show (256 : Nat) = 2 ^ 8 by norm_num, ← pow_mul, Nat.mul_comm 8]
    have habs : 256 ^ bs0.length - bytesToNat bs0 = v.natAbs := by omega
    rw [habs]
    omega
  · intro hv0 bs hbs hhead
    rw [hposcase hv0 true, Option.some.injEq] at hbs
    have hval : bytesToNat bs = v.toNat := by
      rw [← hbs, bytesToNat_eq_valBE]
      exact (encodeBytes_spec v.toNat).1
    have hblt : ∀ b ∈ bs, b < 256 := by
      rw [← hbs]
      exact (encodeBytes_spec v.toNat).2.1
    have hheadlt : bs.headD 0 < 256 := by
      match bs, hblt with
      | [], _ => simp
      | b :: t, hblt => simpa using hblt b (by simp)
    have h0 : bs.headD 0 &&& 128 = 0 := by
      have hnot : ¬(bs.headD 0 &&& 128 ≠ 0) :=
        fun hne1 => absurd ((land128_iff _ hheadlt).mp hne1) (by omega)
      omega
    rw [uint8ToBigint, decode_true_pos bs h0, hval]
    omega
  · intro hv0 bs hbs
    rw [hposcase hv0 false, Option.some.injEq] at hbs
    have hval : bytesToNat bs = v.toNat := by
      rw [← hbs, bytesToNat_eq_valBE]
      exact (encodeBytes_spec v.toNat).1
    rw [uint8ToBigint, decode_false, hval]
    omega

/-- Witness for C1 amended at `v = -5` (negative branch): the encoding is
`[251]` and decodes back to `-5`. -/
theorem roundtrip_spec_witness :
    bigintToUint8 (-5) true = some [251] ∧ uint8ToBigint [251] true = -5 :=
  ⟨by decide, (roundtrip_spec (-5)).1 (by decide) [251] (by decide)⟩

/-- C3 counterexample: at `v = -64` the bit length is 7, so the claim's
`bits = 8 * (floor(7/8) + 1) = 8` predicts the one-byte encoding
`[192]` (`192 = -64 + 2^8`), which is a valid two's-complement encoding of
`-64` (it decodes back to `-64`).  The code instead measures the signed
string `"-1000000"` of length 8, computes `bits = 16`, and emits the
two-byte, non-minimal `[255, 192]`. -/
theorem encode_negative_counterexample :
    bigintToUint8 (-64) true = some [255, 192] ∧
      binLenAux 64 64 = 7 ∧ (8 * (7 / 8 + 1) = 8) ∧
      ((192 : Int) = -64 + 2 ^ 8) ∧ uint8ToBigint [192] true = -64 ∧
      [255, 192] ≠ [192] := by
  refine ⟨by decide, by decide, by decide, by decide, by decide, by decide⟩

/-- C3 amended: for `v < 0`, `bigintToUint8(v, true)` uses
`bits = 8 * (floor((bitlen+1)/8) + 1)` where `bitlen+1 = toString2Len v` is
the length of `v`'s base-2 string *including its minus sign*, and encodes
`v + 2^bits` as exactly `bits/8` bytes whose first byte has the sign bit
set.  The result is a valid byte-aligned two's-complement encoding of `v`
but not always the minimal one (e.g. `v = -64`). -/
theorem encode_negative_spec (v : Int) (hv : v < 0) :
    ∃ bs, bigintToUint8 v true = some bs ∧
      bs.length = toString2Len v / 8 + 1 ∧ 128 ≤ bs.headD 0 ∧
      (bytesToNat bs : Int) = v + 2 ^ ((toString2Len v / 8 + 1) * 8) := by
  obtain ⟨bs, henc, hlen, hlt, hne, hhead, hval⟩ := encode_neg_analysis v hv
  refine ⟨bs, henc, hlen, hhead, ?_⟩
  have hcast : ((2 ^ ((toString2Len v / 8 + 1) * 8) : Nat) : Int) =
      (2 : Int) ^ ((toString2Len v / 8 + 1) * 8) := by
    push_cast
    ring
  omega

/-- Witness for C3 amended at `v = -5`. -/
theorem encode_negative_spec_witness :
    (-5 : Int) < 0 ∧ ∃ bs, bigintToUint8 (-5) true = some bs ∧
      bs.length = toString2Len (-5) / 8 + 1 ∧ 128 ≤ bs.headD 0 ∧
      (bytesToNat bs : Int) = -5 + 2 ^ ((toString2Len (-5) / 8 + 1) * 8) :=
  ⟨by decide, encode_negative_spec (-5) (by decide)⟩

/-- C4 counterexample: decoding `[248]` with `handleNegative = true` mutates
the caller's array in place: afterwards it holds `[8]`, not `[248]`. -/
theorem decode_mutation_counterexample :
    (uint8ToBigintFull [248] true).2 = [8] ∧ [8] ≠ [248] := by
  refine ⟨by decide, by decide⟩

/-- C4 amended: the decoder leaves the caller's array untouched unless
`handleNegative` is true and the sign bit of the first byte is set; in that
case it overwrites the array in place with its two's-complement negation
(same length, values summing to `256^len`). -/
theorem decode_mutation_spec (bytes : List Nat) (flag : Bool)
    (hb : ∀ b ∈ bytes, b < 256) :
    (¬(flag = true ∧ 128 ≤ bytes.headD 0) → (uint8ToBigintFull bytes flag).2 = bytes) ∧
      (flag = true → 128 ≤ bytes.headD 0 → bytes ≠ [] →
        (uint8ToBigintFull bytes flag).2.length = bytes.length ∧
          bytesToNat (uint8ToBigintFull bytes flag).2 + bytesToNat bytes =
            256 ^ bytes.length) := by
  constructor
  · intro hnot
    cases flag with
    | false => rw [decode_false]
    | true =>
      have hhead : bytes.headD 0 < 128 := by
        by_contra h
        exact hnot ⟨rfl, by omega⟩
      have hheadlt : bytes.headD 0 < 256 := by omega
      have h0 : bytes.headD 0 &&& 128 = 0 := by
        have hnot2 : ¬(bytes.headD 0 &&& 128 ≠ 0) :=
          fun hne1 => absurd ((land128_iff _ hheadlt).mp hne1) (by omega)
        omega
      rw [decode_true_pos bytes h0]
  · intro hf hh hne
    subst hf
    obtain ⟨_, hval, hlen⟩ := decode_true_neg bytes hb hne hh
    refine ⟨hlen, ?_⟩
    rw [hval]
    have hnlt := valBE_lt 256 bytes hb
    rw [bytesToNat_eq_valBE]
    rw [bytesToNat_eq_valBE] at hval
    omega

/-- Witness for C4 amended at `([7], false)`: the array is preserved. -/
theorem decode_mutation_spec_witness :
    (∀ b ∈ [7], b < 256) ∧ (uint8ToBigintFull [7] false).2 = [7] :=
  ⟨by decide, (decode_mutation_spec [7] false (by decide)).1 (by decide)⟩

/-!
### Random range generation

`randomBytes` (the platform CSPRNG) is modeled as an oracle: the caller of
the model supplies the list of byte buffers the source returns, one per
iteration of the rejection loop.  Concatenating a buffer's bytes as two hex
digits each (`padStart(2, '0')`) and reading the hex string back is exactly
the big-endian byte value `bytesToNat`.
-/

/-- `Math.ceil(diffLength / 8)`, the number of random bytes drawn per
iteration. -/
def byteSize (diffLength : Nat) : Nat := (diffLength + 7) / 8

/-- The `do ... while (result > diff)` loop of `random`:
```
result = BigInt(hexString) & (1n << BigInt(diffLength) - 1n);
```
By JavaScript operator precedence `-` binds tighter than `<<`, so the mask
is the single bit `1n << (diffLength - 1n)`, not `(1n << diffLength) - 1n`.
`none` means the supplied draws ran out before a value was accepted (the
real loop would keep drawing). -/
def randomLoop (diff : Int) (diffLength : Nat) : List (List Nat) → Option Nat
  | [] => none
  | buffer :: rest =>
    let result : Nat := bytesToNat buffer &&& (1 <<< (diffLength - 1))
    if (result : Int) > diff then randomLoop diff diffLength rest
    else some result

/-- Source `random(start, end)`: throws (outer `none`) if `start > end`,
otherwise runs the rejection loop over the supplied draws and returns
`start + result`. -/
def random (start e : Int) (draws : List (List Nat)) : Option (Option Int) :=
  if start > e then none
  else
    let diff := e - start + 1
    let diffLength := toString2Len diff
    match randomLoop diff diffLength draws with
    | none => some none
    | some result => some (some (start + result))

/-- C2 is false of the code: with `start = 0`, `end = 3` and the (valid,
single-byte, as `byteSize = 1` requires) draw `[255]`, `random` terminates
on the first iteration and returns `4`, which lies outside `[0, 3]`:
`diff = 4`, the mask is the single bit `1 << 2 = 4`, `255 & 4 = 4`, and
`4 > diff` is false so `4` is accepted and `start + 4 = 4` is returned. -/
theorem random_range_bug :
    random 0 3 [[255]] = some (some 4) ∧ ¬((4 : Int) ≤ 3) ∧
      [255].length = byteSize (toString2Len (3 - 0 + 1)) ∧ (255 : Nat) < 256 := by
  refine ⟨by decide, by decide, by decide, by decide⟩

/-!
### Euler's totient
-/

/-- The inner `while (n % i === 0n) n /= i;` loop of `phi`.  The source loop
is reached only with `i ≥ 2` and `n > 0`; the two extra guard conjuncts make
the recursion well-founded without changing behavior at any reachable
call. -/
def divOut (n i : Int) : Int :=
  if h : 2 ≤ i ∧ 0 < n ∧ Int.tmod n i = 0 then divOut (Int.tdiv n i) i else n
termination_by n.toNat
decreasing_by
  obtain ⟨hi, hn, hmod⟩ := h
  obtain ⟨N, rfl⟩ : ∃ N : Nat, n = (N : Int) := ⟨n.toNat, by omega⟩
  obtain ⟨I, rfl⟩ : ∃ I : Nat, i = (I : Int) := ⟨i.toNat, by omega⟩
  rw [← Int.ofNat_tdiv]
  have hq : N / I < N := Nat.div_lt_self (by exact_mod_cast hn) (by exact_mod_cast hi)
  omega

/-- `divOut` keeps the value positive and never increases it (helper). -/
theorem divOut_pos_le (n i : Int) : 0 < n → 0 < divOut n i ∧ divOut n i ≤ n := by
  induction n, i using divOut.induct with
  | case1 n i h ih =>
    intro hn
    rw [divOut, dif_pos h]
    obtain ⟨hi, hn', hmod⟩ := h
    have hdvd : i ∣ n := Int.dvd_of_tmod_eq_zero hmod
    have hile : i ≤ n := Int.le_of_dvd hn' hdvd
    have htd : Int.tdiv n i = n / i := Int.tdiv_eq_ediv_of_dvd hdvd
    have hpos : 0 < Int.tdiv n i := by
      rw [htd]
      have h1 : (1 : Int) ≤ n / i := by
        rw [Int.le_ediv_iff_mul_le (by omega : (0 : Int) < i)]
        omega
      omega
    obtain ⟨h1, h2⟩ := ih hpos
    have hle : Int.tdiv n i ≤ n := by
      rw [htd]
      exact Int.ediv_le_self i (by omega)
    exact ⟨h1, le_trans h2 hle⟩
  | case2 n i h =>
    intro hn
    rw [divOut, dif_neg h]
    exact ⟨hn, le_rfl⟩

/-- Source `phi(n)`, main loop with accumulator `result`:
```
for (let i = 2n; i * i <= n; i++) {
  if (n % i === 0n) {
    while (n % i === 0n) n /= i;
    result -= result / i;
  }
}
if (n > 1n) result -= result / n;
return result;
```
The `2 ≤ i` conjunct holds at every reachable call (`i` starts at 2 and only
increments) and makes the recursion well-founded. -/
def phiLoop (i n result : Int) : Int :=
  if h : 2 ≤ i ∧ i * i ≤ n then
    if Int.tmod n i = 0 then
      phiLoop (i + 1) (divOut n i) (result - Int.tdiv result i)
    else phiLoop (i + 1) n result
  else if 1 < n then result - Int.tdiv result n else result
termination_by (n.toNat + 2) - i.toNat
decreasing_by
  · obtain ⟨hi, hsq⟩ := h
    have hn : (0 : Int) < n := by nlinarith
    have h2i : 2 * i ≤ i * i := by nlinarith
    obtain ⟨hd1, hd2⟩ := divOut_pos_le n i hn
    omega
  · obtain ⟨hi, hsq⟩ := h
    have h2i : 2 * i ≤ i * i := by nlinarith
    omega

/-- Source `phi(n)`. -/
def phi (n : Int) : Int := phiLoop 2 n n

/-- Nat mirror of `divOut`, used to reason about factorizations (helper). -/
def divOutN (n i : Nat) : Nat :=
  if 2 ≤ i ∧ 0 < n ∧ n % i = 0 then divOutN (n / i) i else n
termination_by n
decreasing_by
  rename_i h
  exact Nat.div_lt_self h.2.1 (by omega)

/-- `divOut` on nonnegative inputs agrees with its Nat mirror (helper). -/
theorem divOut_eq_divOutN (n i : Nat) : divOut (n : Int) (i : Int) = (divOutN n i : Nat) := by
  induction n using Nat.strong_induction_on with
  | _ n ih =>
    rw [divOut, divOutN]
    by_cases h : 2 ≤ i ∧ 0 < n ∧ n % i = 0
    · have hInt : 2 ≤ (i : Int) ∧ 0 < (n : Int) ∧ Int.tmod (n : Int) (i : Int) = 0 := by
        refine ⟨by exact_mod_cast h.1, by exact_mod_cast h.2.1, ?_⟩
        rw [← Int.ofNat_tmod]
        exact_mod_cast h.2.2
      rw [dif_pos hInt, if_pos h, ← Int.ofNat_tdiv]
      exact ih (n / i) (Nat.div_lt_self h.2.1 (by omega))
    · have hInt : ¬(2 ≤ (i : Int) ∧ 0 < (n : Int) ∧ Int.tmod (n : Int) (i : Int) = 0) := by
        intro hc
        refine h ⟨by exact_mod_cast hc.1, by exact_mod_cast hc.2.1, ?_⟩
        have := hc.2.2
        rw [← Int.ofNat_tmod] at this
        exact_mod_cast this
      rw [dif_neg hInt, if_neg h]

/-- `divOutN` factors out every power of `i` (helper): `n = i^a * d` with
`i ∤ d` and `d > 0`. -/
theorem divOutN_spec (n i : Nat) (hi : 2 ≤ i) (hn : 0 < n) :
    ∃ a, n = i ^ a * divOutN n i ∧ ¬ i ∣ divOutN n i ∧ 0 < divOutN n i := by
  induction n using Nat.strong_induction_on with
  | _ n ih =>
    rw [divOutN]
    by_cases h : 2 ≤ i ∧ 0 < n ∧ n % i = 0
    · rw [if_pos h]
      have hdvd : i ∣ n := Nat.dvd_of_mod_eq_zero h.2.2
      have hqpos : 0 < n / i := Nat.div_pos (Nat.le_of_dvd h.2.1 hdvd) (by omega)
      obtain ⟨a, ha, hnd, hd⟩ := ih (n / i) (Nat.div_lt_self h.2.1 (by omega)) hqpos
      refine ⟨a + 1, ?_, hnd, hd⟩
      calc n = i * (n / i) := (Nat.mul_div_cancel' hdvd).symm
        _ = i * (i ^ a * divOutN (n / i) i) := by rw [← ha]
        _ = i ^ (a + 1) * divOutN (n / i) i := by ring
    · rw [if_neg h]
      refine ⟨0, by ring, ?_, hn⟩
      intro hdvd
      exact h ⟨hi, hn, Nat.mod_eq_zero_of_dvd hdvd⟩

/-- Terminal case of the `phi` loop: once `i * i > n`, the remaining `n` is
`1` or prime, and the final correction yields `k * φ(n)` (helper). -/
theorem phiLoop_leaf (i n k : Nat) (hi : 2 ≤ i) (hn : 0 < n) (hguard : ¬(i * i ≤ n))
    (hfac : ∀ p, p.Prime → p ∣ n → i ≤ p) :
    phiLoop (i : Int) (n : Int) ((n * k : Nat) : Int) = ((k * Nat.totient n : Nat) : Int) := by
  have hIntguard : ¬(2 ≤ (i : Int) ∧ (i : Int) * i ≤ (n : Int)) := by
    intro hc
    exact hguard (by exact_mod_cast hc.2)
  rw [phiLoop, dif_neg hIntguard]
  by_cases hn1 : n = 1
  · subst hn1
    rw [if_neg (by norm_num)]
    simp [Nat.totient_one]
  · have hn2 : 2 ≤ n := by omega
    have hprime : n.Prime := by
      by_contra hnp
      have hmf := Nat.minFac_sq_le_self (by omega) hnp
      rw [pow_two] at hmf
      have hmfp : (n.minFac).Prime := Nat.minFac_prime (by omega)
      have hge : i ≤ n.minFac := hfac _ hmfp (Nat.minFac_dvd n)
      exact hguard (le_trans (Nat.mul_le_mul hge hge) hmf)
    rw [if_pos (by exact_mod_cast hn2 : (1 : Int) < (n : Int))]
    rw [← Int.ofNat_tdiv, Nat.mul_div_cancel_left k (by omega : 0 < n)]
    rw [Nat.totient_prime hprime]
    have hcast : ((k * (n - 1) : Nat) : Int) = (k : Int) * ((n : Int) - 1) := by
      push_cast [Nat.cast_sub (by omega : 1 ≤ n)]
      ring
    rw [hcast]
    push_cast
    ring

/-- Main invariant of the `phi` loop (helper): if every prime factor of `n`
is at least `i` and the accumulator is `n * k`, the loop returns
`k * φ(n)`.  `M` bounds the measure `n + 2 - i` of the recursion. -/
theorem phiLoop_totient (M : Nat) : ∀ (i n k : Nat), n + 2 - i ≤ M → 2 ≤ i → 0 < n →
    (∀ p, p.Prime → p ∣ n → i ≤ p) →
    phiLoop (i : Int) (n : Int) ((n * k : Nat) : Int) = ((k * Nat.totient n : Nat) : Int) := by
  induction M with
  | zero =>
    intro i n k hM hi hn hfac
    apply phiLoop_leaf i n k hi hn ?_ hfac
    have h2 : n + 2 ≤ i := by omega
    nlinarith
  | succ M ih =>
    intro i n k hM hi hn hfac
    have hin : i ≤ n ∨ ¬(i * i ≤ n) := by
      by_cases hg : i * i ≤ n
      · left
        have : i ≤ i * i := Nat.le_mul_of_pos_left i (by omega)
        omega
      · right
        exact hg
    by_cases hguard : i * i ≤ n
    · have hile : i ≤ n := by tauto
      have hIntguard : 2 ≤ (i : Int) ∧ (i : Int) * i ≤ (n : Int) :=
        ⟨by exact_mod_cast hi, by exact_mod_cast hguard⟩
      rw [phiLoop, dif_pos hIntguard]
      have hcasti : (i : Int) + 1 = ((i + 1 : Nat) : Int) := by push_cast; ring
      by_cases hdvd : n % i = 0
      · have htmod : Int.tmod (n : Int) (i : Int) = 0 := by
          rw [← Int.ofNat_tmod]
          exact_mod_cast hdvd
        rw [if_pos htmod]
        have hidvd : i ∣ n := Nat.dvd_of_mod_eq_zero hdvd
        have hiprime : i.Prime := by
          have hmfp := Nat.minFac_prime (show i ≠ 1 by omega)
          have hq : i.minFac ∣ n := dvd_trans (Nat.minFac_dvd i) hidvd
          have hge : i ≤ i.minFac := hfac _ hmfp hq
          have hle : i.minFac ≤ i := Nat.minFac_le (by omega)
          rw [Nat.prime_def_minFac]
          exact ⟨hi, by omega⟩
        obtain ⟨a, hfact, hnd, hdpos⟩ := divOutN_spec n i hi hn
        set d := divOutN n i with hddef
        have ha1 : 1 ≤ a := by
          by_contra ha0
          have ha0' : a = 0 := by omega
          rw [ha0', pow_zero, one_mul] at hfact
          exact hnd (hfact ▸ hidvd)
        have hddvd : d ∣ n := ⟨i ^ a, by rw [hfact]; ring⟩
        have hdlen : d ≤ n := Nat.le_of_dvd hn hddvd
        have hdivOut : divOut (n : Int) (i : Int) = (d : Int) := divOut_eq_divOutN n i
        set k' := i ^ (a - 1) * (i - 1) * k with hkdef2
        set x := i ^ (a - 1) * d * k with hxdef
        have hnk : n * k = x * i := by
          rw [hfact, hxdef]
          conv_lhs => rw [show a = (a - 1) + 1 by omega]
          rw [pow_succ]
          ring
        have hacc : ((n * k : Nat) : Int) - Int.tdiv ((n * k : Nat) : Int) (i : Int)
            = ((d * k' : Nat) : Int) := by
          rw [← Int.ofNat_tdiv]
          have hdivk : n * k / i = x := by
            rw [hnk, Nat.mul_div_cancel _ (by omega : 0 < i)]
          rw [hdivk]
          have hsub : n * k - x = d * k' := by
            have hdk : d * k' = x * (i - 1) := by
              rw [hkdef2, hxdef]
              ring
            rw [hdk, Nat.mul_sub, Nat.mul_one, hnk, Nat.mul_comm x i, Nat.mul_comm i x]
          rw [← hsub]
          have hxle : x ≤ n * k := by
            rw [hnk]
            exact Nat.le_mul_of_pos_right x (by omega)
          omega
        rw [hdivOut, hacc, hcasti]
        have hfac' : ∀ p, p.Prime → p ∣ d → i + 1 ≤ p := by
          intro p hp hpd
          have hpn : p ∣ n := dvd_trans hpd hddvd
          have hip : i ≤ p := hfac p hp hpn
          have hne : p ≠ i := by
            intro he
            subst he
            exact hnd hpd
          omega
        rw [ih (i + 1) d k' (by omega) (by omega) hdpos hfac']
        congr 1
        have hcop : (i ^ a).Coprime d := (hiprime.coprime_iff_not_dvd.mpr hnd).pow_left _
        rw [hfact, Nat.totient_mul hcop, Nat.totient_prime_pow hiprime (by omega : 0 < a)]
        rw [hkdef2]
        ring
      · have htmod : ¬(Int.tmod (n : Int) (i : Int) = 0) := by
          rw [← Int.ofNat_tmod]
          intro hc
          exact hdvd (by exact_mod_cast hc)
        rw [if_neg htmod, hcasti]
        apply ih (i + 1) n k (by omega) (by omega) hn
        intro p hp hpn
        have hip : i ≤ p := hfac p hp hpn
        have hne : p ≠ i := by
          intro he
          subst he
          exact hdvd (Nat.mod_eq_zero_of_dvd hpn)
        omega
    · exact phiLoop_leaf i n k hi hn hguard hfac

/-- Euler's totient counts `[1, n]` exactly as Mathlib's `[0, n)` filter
(helper). -/
theorem totient_eq_Icc_card (N : Nat) (hN : 0 < N) :
    Nat.totient N = ((Finset.Icc 1 N).filter fun m => Nat.gcd m N = 1).card := by
  by_cases h1 : N = 1
  · subst h1
    decide
  · have h2 : 2 ≤ N := by omega
    rw [Nat.totient_eq_card_coprime]
    congr 1
    ext m
    simp only [Finset.mem_filter, Finset.mem_range, Finset.mem_Icc, Nat.Coprime]
    constructor
    · rintro ⟨hlt, hcop⟩
      have hm1 : 1 ≤ m := by
        rcases Nat.eq_zero_or_pos m with h0 | h
        · subst h0
          rw [Nat.gcd_zero_right] at hcop
          omega
        · exact h
      rw [Nat.gcd_comm] at hcop
      exact ⟨⟨hm1, by omega⟩, hcop⟩
    · rintro ⟨⟨h1m, hmN⟩, hg⟩
      have hmne : m ≠ N := by
        intro he
        subst he
        rw [Nat.gcd_self] at hg
        omega
      rw [Nat.gcd_comm]
      exact ⟨by omega, hg⟩

/-- C9: for every `n ≥ 1`, `phi(n)` — trial division with the shrinking
bound `i*i <= n` — equals Euler's totient of the original `n`, the count of
integers in `[1, n]` coprime to `n`. -/
theorem phi_spec (n : Int) (hn : 1 ≤ n) :
    phi n = (Nat.totient n.toNat : Int) ∧
      phi n = (((Finset.Icc 1 n.toNat).filter fun m => Nat.gcd m n.toNat = 1).card : Int) := by
  set N := n.toNat with hNdef
  have hcastn : ((N : Nat) : Int) = n := by omega
  have h1 : phi n = (Nat.totient N : Int) := by
    have happ := phiLoop_totient (N + 2) 2 N 1 (by omega) (by omega) (by omega)
      (fun p hp _ => hp.two_le)
    have hacc : ((N * 1 : Nat) : Int) = ((N : Nat) : Int) := by push_cast; ring
    rw [hacc] at happ
    rw [phi, ← hcastn, show (2 : Int) = ((2 : Nat) : Int) by norm_num, happ]
    push_cast
    ring
  refine ⟨h1, ?_⟩
  rw [h1]
  congr 1
  exact totient_eq_Icc_card N (by omega)

/-- Witness for C9 at `n = 10`: `phi(10) = 4`. -/
theorem phi_spec_witness :
    (1 : Int) ≤ 10 ∧ phi 10 = (Nat.totient (10 : Int).toNat : Int) ∧ phi 10 = 4 := by
  have h := phi_spec 10 (by norm_num)
  refine ⟨by norm_num, h.1, ?_⟩
  rw [h.1]
  decide

end BigintToolkit
